import Mathlib

/-
Verification of the persistent queue of baetyl-hub
(src/queue/persistence.go) against its natural-language specification.

The Go code is shallowly embedded: each worker-loop body becomes a pure
Lean function over an explicit state; machine integers become Nat (the
offsets are uint64 but never overflow in the modelled range); fallible
operations return Except/Option; the pluggable store bucket is a sorted
association list from offsets to byte strings.
-/

namespace BaetylQueue

/-- Message context, mirroring mqtt.Context (ID, TS, QOS, Flags, Topic). -/
structure MsgContext where
  ID : Nat
  TS : Nat
  QOS : Nat
  Flags : Nat
  Topic : String
  deriving DecidableEq, Repr

/-- A message, mirroring mqtt.Message (Context plus Content payload bytes). -/
structure Message where
  Context : MsgContext
  Content : List Nat
  deriving DecidableEq, Repr

/-- One cached batch, mirroring batchMsgs in persistence.go: the first
assigned offset and the events of the batch. -/
structure batchMsgs where
  offset : Nat
  data : List Message
  deriving DecidableEq, Repr

instance : Inhabited batchMsgs := ⟨⟨0, []⟩⟩

/-- The queue configuration fields used by the modelled code paths. -/
structure Config where
  BatchSize : Nat
  MaxBatchCacheSize : Nat
  ExpireTime : Nat
  deriving DecidableEq, Repr

/-- The mutable state of a Persistence queue that the claims are about:
the committed offset high-water mark, the batch cache, and the disable
flag (all protected by the queue mutex in the source). -/
structure PState where
  offset : Nat
  cache : List batchMsgs
  disable : Bool
  deriving DecidableEq, Repr

/-- Serialization of a message to bytes (proto.Marshal); abstract, may fail. -/
abbrev Encoder : Type := Message → Option (List Nat)

/-- Deserialization of bytes to a message (proto.Unmarshal); abstract, may fail. -/
abbrev Decoder : Type := List Nat → Option Message

/-- The store bucket contents: an association list from offsets to stored
byte strings, kept sorted by offset when used. -/
abbrev Bucket : Type := List (Nat × List Nat)

/-- The offset recorded in a message. -/
def msgID (m : Message) : Nat := m.Context.ID

/-- The offset of the last message of a list (0 when empty); the queue only
uses it on non-empty lists, mirroring buf[len(buf)-1].Context.ID. -/
def lastID (l : List Message) : Nat := ((l.map msgID).getLast?).getD 0

/-- Re-stamping of an event inside add: a fresh record with the assigned
offset and the original timestamp, qos, flags, topic and content
(persistence.go lines 238-247). -/
def stampMsg (id : Nat) (e : Message) : Message :=
  { Context := { ID := id, TS := e.Context.TS, QOS := e.Context.QOS,
                 Flags := e.Context.Flags, Topic := e.Context.Topic },
    Content := e.Content }

/-- The marshalling loop of add (persistence.go lines 235-257): starting
after offset beg, each event is re-stamped with the next offset and
serialized; the first serialization failure aborts the whole flush. -/
def marshalLoop (enc : Encoder) (beg : Nat) : List Message → Option (List (List Nat) × List Message)
  | [] => some ([], [])
  | e :: rest =>
    let ee := stampMsg (beg + 1) e
    match enc ee with
    | none => none
    | some d =>
      match marshalLoop enc (beg + 1) rest with
      | none => none
      | some (ds, msgs) => some (d :: ds, ee :: msgs)

/-- The observable outcome of one call to add: the queue state afterwards,
whether every producer's done capability was fired, the bucket Put call
that was issued (first offset and serialized records), and the buffer
value returned to the writing loop. -/
structure AddOutcome where
  state : PState
  doneFired : Bool
  putCall : Option (Nat × List (List Nat))
  ret : List Message
  deriving DecidableEq, Repr

/-- The add flush of the ingress batcher (persistence.go lines 225-287).
putOk is the result of the bucket Put call. An empty buffer returns at
once; a marshal failure discards the buffer before any Put; on Put
success done is fired for every event, then under the lock: if disable
is set the function returns early, otherwise the batch is cached when
the cache has room and the offset advances by the buffer length. -/
def add (cfg : Config) (enc : Encoder) (putOk : Bool) (st : PState) :
    List Message → AddOutcome
  | [] => ⟨st, false, none, []⟩
  | e :: rest =>
    match marshalLoop enc st.offset (e :: rest) with
    | none => ⟨st, false, none, []⟩
    | some (ds, msgs) =>
      let beg := st.offset + 1
      if putOk then
        if st.disable then ⟨st, true, some (beg, ds), []⟩
        else
          let cache2 :=
            if st.cache.length < cfg.MaxBatchCacheSize
            then st.cache ++ [⟨beg, msgs⟩]
            else st.cache
          ⟨{ st with cache := cache2, offset := st.offset + (e :: rest).length },
           true, some (beg, ds), []⟩
      else ⟨st, false, some (beg, ds), []⟩

/-- The delete flush of the acknowledgement collector (persistence.go
lines 327-340): an empty buffer is a no-op; otherwise DelBeforeID is
called with the LAST buffered offset and the buffer is cleared. The
first component is the argument of the DelBeforeID call, if any. -/
def deleteFlush (buf : List Nat) : Option Nat × List Nat :=
  match buf with
  | [] => (none, buf)
  | _ => (buf.getLast?, [])

/-- Modelled from the spec: store.BatchBucket.DelBeforeID is not under
src (only its caller is). Per the specification the acknowledgement
flush with high-water mark M deletes all offsets less than or equal to
M, so DelBeforeID id removes from the bucket exactly the offsets that
are at most id. -/
def DelBeforeID (id : Nat) (bucket : Bucket) : Bucket :=
  bucket.filter (fun kv => decide (id < kv.1))

/-- The timestamp of the last event of a cached batch (0 when the batch
data is empty, which add never produces), mirroring
v.data[len(v.data)-1].Context.TS. -/
def lastTS (b : batchMsgs) : Nat :=
  ((b.data.map (fun m => m.Context.TS)).getLast?).getD 0

/-- The index computed by the sweep loop of clean (persistence.go lines
378-384): the index of the FIRST batch whose last timestamp is at least
the threshold; the loop variable defaults to 0 when no batch qualifies. -/
def cleanIndex (threshold : Nat) (cache : List batchMsgs) : Nat :=
  (cache.findIdx? (fun b => decide (threshold ≤ lastTS b))).getD 0

/-- The cache trim performed by clean under the queue lock. -/
def cleanCache (threshold : Nat) (cache : List batchMsgs) : List batchMsgs :=
  cache.drop (cleanIndex threshold cache)

/-- The expiry sweep (persistence.go lines 374-392): trims the cache with
threshold now - expire, then calls bucket.DelBeforeTS with that same
threshold. Returns the trimmed cache and the DelBeforeTS argument. -/
def clean (now expire : Nat) (cache : List batchMsgs) : List batchMsgs × Nat :=
  (cleanCache (now - expire) cache, now - expire)

/-- Store-layer error kinds observable inside a pump. -/
inductive StoreErr where
  | dataNotFound
  | decodeFailed
  | readFailed
  deriving DecidableEq, Repr

/-- The callback passed by get to bucket.Get (persistence.go lines
296-311): an empty stored value is ErrDataNotFound, a proto.Unmarshal
failure is an error, and on success the decoded message's Context.ID is
overwritten with the storage key offset. -/
def getCallback (dec : Decoder) (data : List Nat) (offset : Nat) : Except StoreErr Message :=
  if data.length = 0 then .error .dataNotFound
  else
    match dec data with
    | none => .error .decodeFailed
    | some v => .ok { v with Context := { v.Context with ID := offset } }

/-- Modelled from the spec: store.BatchBucket.Get is not under src (only
its caller is). Per the specification it iterates the offsets in
[beg, en) in ascending order, invoking the callback on each stored
record and aborting on the first callback error; here the bucket is a
sorted association list and the range is selected by filtering. -/
def rangeKeys (bucket : Bucket) (beg en : Nat) : Bucket :=
  bucket.filter (fun kv => decide (beg ≤ kv.1) && decide (kv.1 < en))

/-- Folding the get callback over the selected records, aborting on the
first error, as bucket.Get does with the callback of q.get. -/
def decodeAll (dec : Decoder) : Bucket → Except StoreErr (List Message)
  | [] => .ok []
  | kv :: rest =>
    match getCallback dec kv.2 kv.1 with
    | .error e => .error e
    | .ok m =>
      match decodeAll dec rest with
      | .error e => .error e
      | .ok ms => .ok (m :: ms)

/-- q.get (persistence.go lines 290-324): read and decode the records in
[beg, en) from the bucket. -/
def qget (dec : Decoder) (bucket : Bucket) (beg en : Nat) : Except StoreErr (List Message) :=
  decodeAll dec (rangeKeys bucket beg en)

/-- Whether the cache inspection of a pump hits: the cache is non-empty
and its head batch starts exactly at the read cursor. -/
def cacheHit (cache : List batchMsgs) (bg : Nat) : Bool :=
  match cache with
  | [] => false
  | c :: _ => bg = c.offset

/-- The exclusive upper bound computed by a pump (persistence.go lines
142-158): the head cached batch's offset when the cache is non-empty,
else 0; replaced by offset + 1 when still 0; then clamped to
bg + interval. -/
def pumpEnd (interval offsetHW : Nat) (cache : List batchMsgs) (bg : Nat) : Nat :=
  let e0 := match cache with
    | [] => 0
    | c :: _ => c.offset
  let e1 := if e0 = 0 then offsetHW + 1 else e0
  if bg + interval < e1 then bg + interval else e1

/-- The outcome of one pump of the reading loop: the events sent to the
egress channel, the next read cursor, and the cache afterwards. -/
structure PumpResult where
  emitted : List Message
  nextBegin : Nat
  cacheAfter : List batchMsgs
  deriving DecidableEq, Repr

/-- One pump of the reading loop (persistence.go lines 139-181). Under
the lock the cache head is taken when it starts at the cursor; otherwise,
when the cursor has room below the bound, the records are read from the
bucket (readOk injects a bucket read failure); a read error or an empty
result skips the pump; otherwise the events are emitted and the cursor
advances to the last delivered offset plus one. -/
def pump (interval : Nat) (dec : Decoder) (bucket : Bucket) (readOk : Bool)
    (offsetHW : Nat) (cache : List batchMsgs) (bg : Nat) : PumpResult :=
  let hit := cacheHit cache bg
  let buf0 : List Message := if hit then (cache.headI).data else []
  let cache1 := if hit then cache.tail else cache
  let en := pumpEnd interval offsetHW cache bg
  if buf0.isEmpty then
    if bg ≠ en then
      if readOk then
        match qget dec bucket bg en with
        | .error _ => ⟨[], bg, cache1⟩
        | .ok buf =>
          if buf.isEmpty then ⟨[], bg, cache1⟩
          else ⟨buf, lastID buf + 1, cache1⟩
      else ⟨[], bg, cache1⟩
    else ⟨[], bg, cache1⟩
  else ⟨buf0, lastID buf0 + 1, cache1⟩

/-- The environment one pump runs in: the configuration interval, the
decoder, the bucket contents, whether the bucket read succeeds, and the
shared offset and cache as the concurrent batcher last left them. -/
structure PumpEnv where
  interval : Nat
  dec : Decoder
  bucket : Bucket
  readOk : Bool
  offsetHW : Nat
  cache : List batchMsgs

/-- A run of the reading loop: the pumps fire in sequence, each seeing
its own environment snapshot, the cursor threaded through; the run's
output is the concatenation of everything sent to the egress channel. -/
def runPumps : Nat → List PumpEnv → List Message
  | _, [] => []
  | bg, env :: rest =>
    let r := pump env.interval env.dec env.bucket env.readOk env.offsetHW env.cache bg
    r.emitted ++ runPumps r.nextBegin rest

/-- A well-formed cached batch: non-empty data carrying the consecutive
offsets that add assigned, starting at the batch's offset. -/
def WFBatch (b : batchMsgs) : Prop :=
  b.data ≠ [] ∧ b.data.map msgID = List.range' b.offset b.data.length

/-- Well-formedness of a pump environment: the bucket's keys are strictly
sorted (it is an ordered store) and every cached batch is well formed. -/
def WFEnv (env : PumpEnv) : Prop :=
  List.Pairwise (fun a b => a.1 < b.1) env.bucket ∧ ∀ b ∈ env.cache, WFBatch b

/-- The errors Push and Pop can surface. ErrQueueClosed is the
closed-queue error; internal stands for any other error kind a caller
could imagine. -/
inductive QErr where
  | ErrQueueClosed
  | internal (msg : String)
  deriving DecidableEq, Repr

/-- Which arm of the two-way select of Push and Pop fires: the channel
operation becomes ready, or the queue's dying signal is observed. -/
inductive SelectArm where
  | ready
  | dying
  deriving DecidableEq, Repr

/-- Push (persistence.go lines 77-87): the event is accepted when the
ingress channel send is selected; the dying arm returns ErrQueueClosed. -/
def PushRes (arm : SelectArm) : Except QErr Unit :=
  match arm with
  | .ready => .ok ()
  | .dying => .error .ErrQueueClosed

/-- Pop (persistence.go lines 361-371): an event received from the egress
channel is returned; the dying arm returns ErrQueueClosed. -/
def PopRes (e : Message) (arm : SelectArm) : Except QErr Message :=
  match arm with
  | .ready => .ok e
  | .dying => .error .ErrQueueClosed

/-- The transitions that touch the shared queue state (offset, cache,
disable): a batcher flush, the reader popping the cache head on a hit,
an expiry sweep, and Disable (persistence.go lines 416-420). -/
inductive QStep (cfg : Config) : PState → PState → Prop
  | addStep (enc : Encoder) (putOk : Bool) (buf : List Message) (st : PState) :
      QStep cfg st (add cfg enc putOk st buf).state
  | popStep (st : PState) :
      QStep cfg st { st with cache := st.cache.tail }
  | cleanStep (now expire : Nat) (st : PState) :
      QStep cfg st { st with cache := cleanCache (now - expire) st.cache }
  | disableStep (st : PState) :
      QStep cfg st { st with disable := true }

/-- Reachability of queue states through the modelled transitions. -/
def Reachable (cfg : Config) : PState → PState → Prop :=
  Relation.ReflTransGen (QStep cfg)

/-- The state NewPersistence starts from (persistence.go lines 58-69):
the bucket's max offset, an empty cache, disable unset. -/
def initState (offset0 : Nat) : PState := ⟨offset0, [], false⟩

/-- Concrete configuration used to exercise the theorems. -/
def cfg0 : Config := ⟨10, 5, 0⟩

/-- Concrete encoder that serializes every message to one byte. -/
def enc0 : Encoder := fun _ => some [0]

/-- A concrete incoming message (ID not yet assigned). -/
def msg0 : Message := ⟨⟨0, 9, 1, 0, "t"⟩, [1]⟩

/-- A concrete cached batch whose single event is long expired. -/
def staleBatch : batchMsgs := ⟨1, [⟨⟨1, 0, 1, 0, "t"⟩, [1]⟩]⟩

/-- A concrete cached batch whose single event is fresh at time 200. -/
def freshBatch : batchMsgs := ⟨2, [⟨⟨2, 150, 1, 0, "t"⟩, [1]⟩]⟩

/-- The last element selected by getLast? with default is a member of any
non-empty list. -/
theorem getLastD_mem (l : List Nat) (h : l ≠ []) : (l.getLast?).getD 0 ∈ l := by
  induction l with
  | nil => exact absurd rfl h
  | cons a t ih =>
    cases t with
    | nil => simp
    | cons b t2 =>
      rw [List.getLast?_cons_cons]
      exact List.mem_cons_of_mem a (ih (by simp))

/-- In a strictly sorted list of naturals every member is at most the
last element. -/
theorem mem_le_getLastD (l : List Nat) (hl : List.Pairwise (· < ·) l) :
    ∀ x ∈ l, x ≤ (l.getLast?).getD 0 := by
  induction l with
  | nil => intro x hx; simp at hx
  | cons a t ih =>
    intro x hx
    rcases List.pairwise_cons.mp hl with ⟨ha, ht⟩
    cases t with
    | nil => simp at hx; simp [hx]
    | cons b t2 =>
      rw [List.getLast?_cons_cons]
      rcases List.mem_cons.mp hx with hxa | hxt
      · exact hxa ▸ le_of_lt (ha _ (getLastD_mem (b :: t2) (by simp)))
      · exact ih ht x hxt

/-- In a non-empty list sorted by at-most, the last element is the
maximum computed by folding max over the list. -/
theorem sorted_getLast_eq_foldr_max (l : List Nat) (hl : List.Pairwise (· ≤ ·) l)
    (h : l ≠ []) : l.getLast? = some (l.foldr max 0) := by
  induction l with
  | nil => exact absurd rfl h
  | cons a t ih =>
    rcases List.pairwise_cons.mp hl with ⟨ha, ht⟩
    cases t with
    | nil => simp
    | cons b t2 =>
      rw [List.getLast?_cons_cons, ih ht (by simp)]
      have hm : (b :: t2).foldr max 0 ∈ b :: t2 := by
        have := getLastD_mem (b :: t2) (by simp)
        rwa [ih ht (by simp)] at this
      have hle : a ≤ (b :: t2).foldr max 0 := ha _ hm
      have h2 : (a :: b :: t2).foldr max 0 = max a ((b :: t2).foldr max 0) := rfl
      rw [h2, Nat.max_eq_right hle]

/-- The shape of findIdx? on a list containing a satisfying element: it
returns the index (relative to the accumulator) of the first such
element, everything before it dissatisfies the predicate, and the drop
at that index starts with a satisfying element. -/
theorem findIdx_shape {α : Type} (p : α → Bool) :
    ∀ (l : List α) (i : Nat), (∃ b ∈ l, p b = true) →
    ∃ j, List.findIdx? p l i = some (i + j) ∧
      (∀ b ∈ l.take j, p b = false) ∧
      ∃ hd, (l.drop j).head? = some hd ∧ p hd = true := by
  intro l
  induction l with
  | nil => intro i h; simp at h
  | cons x xs ih =>
    intro i h
    by_cases hp : p x = true
    · exact ⟨0, by simp [List.findIdx?_cons, hp], by simp, x, by simp, hp⟩
    · have hx : ∃ b ∈ xs, p b = true := by
        rcases h with ⟨b, hb, hpb⟩
        rcases List.mem_cons.mp hb with rfl | hbxs
        · exact absurd hpb hp
        · exact ⟨b, hbxs, hpb⟩
      rcases ih (i + 1) hx with ⟨j, hfind, htake, hd, hhd, hphd⟩
      refine ⟨j + 1, ?_, ?_, hd, ?_, hphd⟩
      · rw [List.findIdx?_cons, if_neg (by simp [hp]), hfind]
        congr 1
        omega
      · intro b hb
        rcases List.mem_cons.mp (by simpa using hb) with rfl | hbt
        · simpa using hp
        · exact htake b (by simpa using hbt)
      · simpa using hhd

/-- Claim C10: flushing an empty buffer is a complete no-op for both the
ingress batcher and the acknowledgement collector: add with an empty
buffer performs no Put, fires no done, returns the buffer, and leaves
the state (offset and cache) unchanged; deleteFlush with an empty buffer
performs no DelBeforeID call. -/
theorem c10_empty_flush_noop :
    (∀ (cfg : Config) (enc : Encoder) (putOk : Bool) (st : PState),
      add cfg enc putOk st [] = ⟨st, false, none, []⟩) ∧
    deleteFlush [] = (none, []) :=
  ⟨fun _ _ _ _ => rfl, rfl⟩

/-- Claim C1 counterexample: with acknowledgements arriving out of order
as the buffer [5, 3], the collector flush passes 3 (the last element) to
DelBeforeID, not the maximum 5; the bucket entry at offset 4 (which is
at most the maximum) survives the deletion, contradicting the claim that
exactly the offsets up to the buffer maximum are deleted regardless of
arrival order. -/
theorem c1_counterexample :
    (deleteFlush [5, 3]).1 = some 3 ∧
    List.foldr max 0 [5, 3] = 5 ∧
    (3 : Nat) ≠ 5 ∧
    DelBeforeID 3 [(4, [1])] = [(4, [1])] ∧
    (4 : Nat) ≤ 5 := by
  refine ⟨rfl, by decide, by decide, by decide, by decide⟩

/-- Claim C1 amended: when the acknowledgement collector flushes a
non-empty buffer it clears the buffer and calls DelBeforeID with the
LAST buffered offset, which deletes exactly the offsets at most that
value; the last offset coincides with the buffer maximum whenever the
acknowledgements arrived in ascending order. -/
theorem c1_delete_last_amended (buf : List Nat) (h : buf ≠ []) :
    (deleteFlush buf).1 = buf.getLast? ∧
    (deleteFlush buf).2 = [] ∧
    (∀ (id : Nat) (bucket : Bucket) (kv : Nat × List Nat),
      kv ∈ DelBeforeID id bucket ↔ kv ∈ bucket ∧ id < kv.1) ∧
    (List.Pairwise (· ≤ ·) buf → buf.getLast? = some (buf.foldr max 0)) := by
  refine ⟨?_, ?_, ?_, fun hs => sorted_getLast_eq_foldr_max buf hs h⟩
  · cases buf with
    | nil => exact absurd rfl h
    | cons a t => rfl
  · cases buf with
    | nil => exact absurd rfl h
    | cons a t => rfl
  · intro id bucket kv
    simp [DelBeforeID, List.mem_filter]

/-- Witness for the amended claim C1 at the in-order buffer [3, 5]: the
flush passes the last offset 5 and the bucket entry at offset 7 (above
5) survives while being characterised by the membership equivalence. -/
theorem c1_witness :
    (deleteFlush [3, 5]).1 = List.getLast? [3, 5] ∧
    ((7, [9]) ∈ DelBeforeID 5 [(4, [8]), (7, [9])]) ∧
    List.getLast? [3, 5] = some (List.foldr max 0 [3, 5]) := by
  have h := c1_delete_last_amended [3, 5] (by decide)
  exact ⟨h.1,
    (h.2.2.1 5 [(4, [8]), (7, [9])] (7, [9])).mpr ⟨by decide, by decide⟩,
    h.2.2.2 (by decide)⟩

/-- Claim C2 counterexample: a flush of one event whose Put succeeds
while disable is set fires done and performs the store write, yet leaves
the queue offset at 0 instead of advancing it to 1 — contradicting the
claim that the offset advance happens on every successful put including
when disable has been set. -/
theorem c2_counterexample :
    (add cfg0 enc0 true ⟨0, [], true⟩ [msg0]).putCall = some (1, [[0]]) ∧
    (add cfg0 enc0 true ⟨0, [], true⟩ [msg0]).doneFired = true ∧
    (add cfg0 enc0 true ⟨0, [], true⟩ [msg0]).state.offset = 0 ∧
    (0 : Nat) ≠ 0 + 1 :=
  ⟨rfl, rfl, rfl, by decide⟩

/-- Claim C2 amended: for every flush of a non-empty ingress buffer whose
marshalling and bucket put succeed, each producer's done capability is
fired and the store write is issued at offset + 1; when disable is not
set the offset advances by the buffer length and the batch is cached
exactly when the cache has room; when disable is set the store write and
the done firing stand but the state — including the offset — is left
entirely unchanged. -/
theorem c2_flush_success_amended (cfg : Config) (enc : Encoder) (st : PState)
    (e : Message) (rest : List Message) (ds : List (List Nat)) (msgs : List Message)
    (out : AddOutcome)
    (hm : marshalLoop enc st.offset (e :: rest) = some (ds, msgs))
    (hout : out = add cfg enc true st (e :: rest)) :
    out.doneFired = true ∧
    out.putCall = some (st.offset + 1, ds) ∧
    (st.disable = false →
      out.state.offset = st.offset + (e :: rest).length ∧
      out.state.cache = (if st.cache.length < cfg.MaxBatchCacheSize
        then st.cache ++ [⟨st.offset + 1, msgs⟩] else st.cache) ∧
      out.state.disable = false) ∧
    (st.disable = true → out.state = st) := by
  subst hout
  cases hd : st.disable <;>
    simp [add, hm, hd]

/-- Witness for the amended claim C2: flushing one event from the fresh
enabled state advances the offset to 1 and caches the stamped batch. -/
theorem c2_witness :
    (add cfg0 enc0 true ⟨0, [], false⟩ [msg0]).doneFired = true ∧
    (add cfg0 enc0 true ⟨0, [], false⟩ [msg0]).state.offset = 0 + 1 := by
  have h := c2_flush_success_amended cfg0 enc0 ⟨0, [], false⟩ msg0 [] [[0]]
    [stampMsg 1 msg0] (add cfg0 enc0 true ⟨0, [], false⟩ [msg0]) rfl rfl
  exact ⟨h.1, (h.2.2.1 rfl).1⟩

/-- Claim C3 counterexample: at time 200 with expire time 100, a cache
holding one batch whose last event timestamp is 0 (older than the
threshold 100) is left completely unchanged by the sweep, because the
Go loop's index variable stays 0 when no batch is fresh — so after the
sweep the cache is non-empty and its first batch is stale, contradicting
the claim. -/
theorem c3_counterexample :
    (clean 200 100 [staleBatch]).1 = [staleBatch] ∧
    lastTS staleBatch < 200 - 100 := by
  constructor
  · rfl
  · decide

/-- Claim C3 amended: on an expiry tick whose cache contains at least one
batch with a fresh last timestamp, the sweep drops exactly the leading
stale batches: everything before the computed index is stale and the
trimmed cache starts with a fresh batch; in every case the bucket's
delete-before-timestamp is called with threshold now - expire. When
every batch is stale the cache is instead left unchanged. -/
theorem c3_clean_amended (now expire : Nat) (cache : List batchMsgs)
    (h : ∃ b ∈ cache, now - expire ≤ lastTS b) :
    (clean now expire cache).2 = now - expire ∧
    (∀ b ∈ cache.take (cleanIndex (now - expire) cache), lastTS b < now - expire) ∧
    (∃ hd, ((clean now expire cache).1).head? = some hd ∧ now - expire ≤ lastTS hd) := by
  have hx : ∃ b ∈ cache, (fun b => decide (now - expire ≤ lastTS b)) b = true := by
    rcases h with ⟨b, hb, hle⟩
    exact ⟨b, hb, by simpa using hle⟩
  rcases findIdx_shape (fun b => decide (now - expire ≤ lastTS b)) cache 0 hx with
    ⟨j, hfind, htake, hd, hhd, hphd⟩
  have hidx : cleanIndex (now - expire) cache = j := by
    unfold cleanIndex
    rw [hfind]
    simp only [Option.getD_some]
    omega
  refine ⟨rfl, ?_, hd, ?_, of_decide_eq_true hphd⟩
  · intro b hb
    have h2 := htake b (by rwa [hidx] at hb)
    have h3 := of_decide_eq_false h2
    omega
  · simp only [clean, cleanCache, hidx]
    exact hhd

/-- Witness for the amended claim C3: with a stale batch followed by a
fresh one, the sweep threshold is 100, the stale head is dropped and the
trimmed cache starts with the fresh batch. -/
theorem c3_witness :
    (clean 200 100 [staleBatch, freshBatch]).2 = 200 - 100 ∧
    (∃ hd, ((clean 200 100 [staleBatch, freshBatch]).1).head? = some hd ∧
      200 - 100 ≤ lastTS hd) := by
  have h := c3_clean_amended 200 100 [staleBatch, freshBatch]
    ⟨freshBatch, by decide, by decide⟩
  exact ⟨h.1, h.2.2⟩

/-- The message a corrupted record decodes to in the C5 scenario: its
encoded offset is 7. -/
def msg7 : Message := ⟨⟨7, 0, 1, 0, "t"⟩, [1]⟩

/-- A decoder standing for proto.Unmarshal on the corrupted record: every
byte string decodes to the message whose encoded offset is 7. -/
def dec7 : Decoder := fun _ => some msg7

/-- Claim C5 counterexample: a persisted record that decodes to encoded
offset 7 but is stored under key 5 is NOT rejected: the get callback
accepts it and silently overwrites the offset with the storage key,
contradicting the claim that an offset mismatch is treated as a
corruption error. -/
theorem c5_counterexample :
    getCallback dec7 [1] 5 = .ok ⟨⟨5, 0, 1, 0, "t"⟩, [1]⟩ ∧
    msg7.Context.ID ≠ 5 :=
  ⟨rfl, by decide⟩

/-- Claim C5 amended: during a pump the get callback treats an empty
stored value and a decode failure as corruption errors, which abort the
batch read; a record whose encoded offset differs from its storage key
is not detected: it is accepted with the decoded offset silently
overwritten by the key. An empty record anywhere in the range makes the
whole read fail. -/
theorem c5_getCallback_amended (dec : Decoder) (data : List Nat) (off : Nat) :
    (data = [] → getCallback dec data off = .error .dataNotFound) ∧
    (data ≠ [] → dec data = none → getCallback dec data off = .error .decodeFailed) ∧
    (∀ v, data ≠ [] → dec data = some v →
      getCallback dec data off = .ok { v with Context := { v.Context with ID := off } }) ∧
    (∀ rest : Bucket, decodeAll dec ((off, []) :: rest) = .error .dataNotFound) := by
  refine ⟨?_, ?_, ?_, ?_⟩
  · intro h
    simp [getCallback, h]
  · intro h hdec
    simp [getCallback, List.length_eq_zero.not.mpr h, hdec]
  · intro v h hdec
    simp [getCallback, List.length_eq_zero.not.mpr h, hdec]
  · intro rest
    simp [decodeAll, getCallback]

/-- Witness for the amended claim C5: the empty record under key 4 makes
the callback error and poisons the whole decode of the range. -/
theorem c5_witness :
    getCallback dec7 [] 4 = .error .dataNotFound ∧
    decodeAll dec7 [(4, []), (5, [1])] = .error .dataNotFound := by
  have h := c5_getCallback_amended dec7 [] 4
  exact ⟨h.1 rfl, h.2.2.2 [(5, [1])]⟩

/-- Claim C6: for every flush of a non-empty ingress buffer in which the
bucket put fails or serialization of some event fails, the buffer is
discarded (an empty buffer is returned to the loop, which continues),
no producer's done capability is fired, and the queue state — offset and
cache — is unchanged. -/
theorem c6_flush_failure (cfg : Config) (enc : Encoder) (putOk : Bool) (st : PState)
    (e : Message) (rest : List Message)
    (h : marshalLoop enc st.offset (e :: rest) = none ∨ putOk = false) :
    (add cfg enc putOk st (e :: rest)).state = st ∧
    (add cfg enc putOk st (e :: rest)).doneFired = false ∧
    (add cfg enc putOk st (e :: rest)).ret = [] := by
  rcases h with hm | hp
  · simp [add, hm]
  · subst hp
    cases hm : marshalLoop enc st.offset (e :: rest) with
    | none => simp [add, hm]
    | some p => simp [add, hm]

/-- Witness for claim C6: a failed Put of one event leaves the fresh
state untouched with done unfired. -/
theorem c6_witness :
    (add cfg0 enc0 false ⟨0, [], false⟩ [msg0]).state = ⟨0, [], false⟩ ∧
    (add cfg0 enc0 false ⟨0, [], false⟩ [msg0]).doneFired = false := by
  have h := c6_flush_failure cfg0 enc0 false ⟨0, [], false⟩ msg0 [] (Or.inr rfl)
  exact ⟨h.1, h.2.1⟩

/-- Claim C7: Push succeeds exactly when the ingress channel send is
selected and returns ErrQueueClosed exactly when the dying arm fires;
Pop returns the received event or ErrQueueClosed likewise; neither
operation can surface any error other than ErrQueueClosed. -/
theorem c7_push_pop_closed :
    (∀ arm, PushRes arm =
      if arm = .dying then .error .ErrQueueClosed else .ok ()) ∧
    (∀ (e : Message) arm, PopRes e arm =
      if arm = .dying then .error .ErrQueueClosed else .ok e) ∧
    (∀ arm err, PushRes arm = .error err → err = .ErrQueueClosed ∧ arm = .dying) ∧
    (∀ (e : Message) arm err, PopRes e arm = .error err →
      err = .ErrQueueClosed ∧ arm = .dying) := by
  refine ⟨?_, ?_, ?_, ?_⟩
  · intro arm; cases arm <;> rfl
  · intro e arm; cases arm <;> rfl
  · intro arm err h
    cases arm
    · exact absurd h (by simp [PushRes])
    · exact ⟨by simpa [PushRes] using h.symm, rfl⟩
  · intro e arm err h
    cases arm
    · exact absurd h (by simp [PopRes])
    · exact ⟨by simpa [PopRes] using h.symm, rfl⟩

/-- Witness for claim C7: the dying arm of Push yields exactly the
closed-queue error. -/
theorem c7_witness :
    PushRes .dying = .error .ErrQueueClosed ∧
    (QErr.ErrQueueClosed = QErr.ErrQueueClosed ∧ SelectArm.dying = SelectArm.dying) :=
  ⟨rfl, c7_push_pop_closed.2.2.1 .dying .ErrQueueClosed rfl⟩

/-- A flush never grows the cache beyond the configured bound. -/
theorem add_cache_length (cfg : Config) (enc : Encoder) (putOk : Bool) (st : PState)
    (buf : List Message) (h : st.cache.length ≤ cfg.MaxBatchCacheSize) :
    (add cfg enc putOk st buf).state.cache.length ≤ cfg.MaxBatchCacheSize := by
  cases buf with
  | nil => simpa [add] using h
  | cons e rest =>
    cases hm : marshalLoop enc st.offset (e :: rest) with
    | none => simpa [add, hm] using h
    | some p =>
      obtain ⟨ds, msgs⟩ := p
      cases putOk with
      | false => simpa [add, hm] using h
      | true =>
        cases hd : st.disable with
        | true => simpa [add, hm, hd] using h
        | false =>
          by_cases hc : st.cache.length < cfg.MaxBatchCacheSize
          · simp [add, hm, hd, hc]
            omega
          · simpa [add, hm, hd, hc] using h

/-- A flush from a disabled state never changes the queue state. -/
theorem add_disabled (cfg : Config) (enc : Encoder) (putOk : Bool) (st : PState)
    (buf : List Message) (hd : st.disable = true) :
    (add cfg enc putOk st buf).state = st := by
  cases buf with
  | nil => rfl
  | cons e rest =>
    cases hm : marshalLoop enc st.offset (e :: rest) with
    | none => simp [add, hm]
    | some p =>
      obtain ⟨ds, msgs⟩ := p
      cases putOk <;> simp [add, hm, hd]

/-- Every modelled transition preserves the cache bound. -/
theorem qstep_cache_bound {cfg : Config} {st st2 : PState} (hs : QStep cfg st st2)
    (h : st.cache.length ≤ cfg.MaxBatchCacheSize) :
    st2.cache.length ≤ cfg.MaxBatchCacheSize := by
  cases hs with
  | addStep enc putOk buf st => exact add_cache_length cfg enc putOk st buf h
  | popStep st =>
    show st.cache.tail.length ≤ cfg.MaxBatchCacheSize
    rw [List.length_tail]
    omega
  | cleanStep now expire st =>
    show (cleanCache (now - expire) st.cache).length ≤ cfg.MaxBatchCacheSize
    simp only [cleanCache]
    rw [List.length_drop]
    omega
  | disableStep st => exact h

/-- Claim C8: in every state reachable from the initial state the cache
holds at most MaxBatchCacheSize batches; once disable is set every
transition leaves the cache a suffix of what it was (no batch is ever
appended again) and keeps disable set; and a successful flush against a
full cache leaves the cache unchanged while still issuing the store
write and advancing the offset. -/
theorem c8_cache_bounded_and_frozen (cfg : Config) :
    (∀ (offset0 : Nat) (st : PState), Reachable cfg (initState offset0) st →
      st.cache.length ≤ cfg.MaxBatchCacheSize) ∧
    (∀ st st2 : PState, QStep cfg st st2 → st.disable = true →
      st2.cache.IsSuffix st.cache ∧ st2.disable = true) ∧
    (∀ (enc : Encoder) (st : PState) (e : Message) (rest : List Message)
        (ds : List (List Nat)) (msgs : List Message),
      st.disable = false →
      ¬ st.cache.length < cfg.MaxBatchCacheSize →
      marshalLoop enc st.offset (e :: rest) = some (ds, msgs) →
      (add cfg enc true st (e :: rest)).state.cache = st.cache ∧
      (add cfg enc true st (e :: rest)).putCall = some (st.offset + 1, ds) ∧
      (add cfg enc true st (e :: rest)).state.offset = st.offset + (e :: rest).length) := by
  refine ⟨?_, ?_, ?_⟩
  · intro offset0 st h
    induction h with
    | refl => exact Nat.zero_le _
    | tail h1 h2 ih => exact qstep_cache_bound h2 ih
  · intro st st2 hs hd
    cases hs with
    | addStep enc putOk buf st =>
      rw [add_disabled cfg enc putOk st buf hd]
      exact ⟨List.suffix_refl _, hd⟩
    | popStep st => exact ⟨List.tail_suffix _, hd⟩
    | cleanStep now expire st => exact ⟨List.drop_suffix _ _, hd⟩
    | disableStep st => exact ⟨List.suffix_refl _, rfl⟩
  · intro enc st e rest ds msgs hd hc hm
    simp [add, hm, hd, hc]

/-- Witness for claim C8: the initial state itself is reachable and
satisfies the cache bound under the concrete configuration. -/
theorem c8_witness : (initState 0).cache.length ≤ cfg0.MaxBatchCacheSize :=
  (c8_cache_bounded_and_frozen cfg0).1 0 (initState 0) Relation.ReflTransGen.refl

/-- Claim C9: a pump that takes the store path (no cache hit) and whose
bucket read fails or returns no events in the requested range emits
nothing, leaves the read cursor unchanged, and leaves the cache alone,
waiting for the next pump. -/
theorem c9_failed_pump (interval : Nat) (dec : Decoder) (bucket : Bucket) (readOk : Bool)
    (offsetHW : Nat) (cache : List batchMsgs) (bg : Nat)
    (hmiss : cacheHit cache bg = false)
    (h : readOk = false ∨
      (∃ err, qget dec bucket bg (pumpEnd interval offsetHW cache bg) = .error err) ∨
      qget dec bucket bg (pumpEnd interval offsetHW cache bg) = .ok []) :
    (pump interval dec bucket readOk offsetHW cache bg).emitted = [] ∧
    (pump interval dec bucket readOk offsetHW cache bg).nextBegin = bg ∧
    (pump interval dec bucket readOk offsetHW cache bg).cacheAfter = cache := by
  rcases h with hro | ⟨err, herr⟩ | hok
  · simp only [pump, hmiss, if_false, Bool.false_eq_true, List.isEmpty_nil, if_true, hro]
    split <;> simp
  · simp only [pump, hmiss, if_false, Bool.false_eq_true, List.isEmpty_nil, if_true, herr]
    split
    · split
      · exact ⟨rfl, rfl, rfl⟩
      · exact ⟨rfl, rfl, rfl⟩
    · exact ⟨rfl, rfl, rfl⟩
  · simp only [pump, hmiss, if_false, Bool.false_eq_true, List.isEmpty_nil, if_true, hok]
    split
    · split
      · exact ⟨rfl, rfl, rfl⟩
      · exact ⟨rfl, rfl, rfl⟩
    · exact ⟨rfl, rfl, rfl⟩

/-- Witness for claim C9: with an empty bucket, a cursor of 1 and an
offset high-water mark of 2, the pump reads an empty range and neither
emits nor advances. -/
theorem c9_witness :
    (pump 10 dec7 [] true 2 [] 1).emitted = [] ∧
    (pump 10 dec7 [] true 2 [] 1).nextBegin = 1 ∧
    (pump 10 dec7 [] true 2 [] 1).cacheAfter = [] :=
  c9_failed_pump 10 dec7 [] true 2 [] 1 rfl (Or.inr (Or.inr rfl))

/-- A record accepted by the get callback carries the storage key as its
offset, whatever it decoded to. -/
theorem getCallback_ok_id (dec : Decoder) (d : List Nat) (k : Nat) (m : Message)
    (h : getCallback dec d k = .ok m) : msgID m = k := by
  unfold getCallback at h
  by_cases hl : d.length = 0
  · rw [if_pos hl] at h
    exact absurd h (by simp)
  · rw [if_neg hl] at h
    cases hd : dec d with
    | none =>
      rw [hd] at h
      exact absurd h (by simp)
    | some v =>
      rw [hd] at h
      simp only [Except.ok.injEq] at h
      subst h
      rfl

/-- A successful batch decode yields the messages stamped with exactly
the storage keys of the read records, in order. -/
theorem decodeAll_ok_ids (dec : Decoder) :
    ∀ (l : Bucket) (ms : List Message), decodeAll dec l = .ok ms →
      ms.map msgID = l.map Prod.fst := by
  intro l
  induction l with
  | nil =>
    intro ms h
    simp only [decodeAll, Except.ok.injEq] at h
    subst h
    rfl
  | cons kv rest ih =>
    intro ms h
    unfold decodeAll at h
    cases hcb : getCallback dec kv.2 kv.1 with
    | error e =>
      rw [hcb] at h
      exact absurd h (by simp)
    | ok m =>
      rw [hcb] at h
      cases hra : decodeAll dec rest with
      | error e =>
        rw [hra] at h
        exact absurd h (by simp)
      | ok ms2 =>
        rw [hra] at h
        simp only [Except.ok.injEq] at h
        subst h
        simp only [List.map_cons]
        rw [ih ms2 hra, getCallback_ok_id dec kv.2 kv.1 m hcb]

/-- Exhaustive behaviour of one pump: either the cache head is taken
whole (it starts at the cursor and is non-empty), or the pump is a skip
(nothing emitted, cursor unchanged), or the store path delivered a
non-empty read and the cursor jumps past its last offset. -/
theorem pump_cases (interval : Nat) (dec : Decoder) (bucket : Bucket) (readOk : Bool)
    (offsetHW : Nat) (cache : List batchMsgs) (bg : Nat) :
    (∃ c rest, cache = c :: rest ∧ bg = c.offset ∧ c.data ≠ [] ∧
      pump interval dec bucket readOk offsetHW cache bg = ⟨c.data, lastID c.data + 1, rest⟩) ∨
    ((pump interval dec bucket readOk offsetHW cache bg).emitted = [] ∧
     (pump interval dec bucket readOk offsetHW cache bg).nextBegin = bg) ∨
    (∃ buf, qget dec bucket bg (pumpEnd interval offsetHW cache bg) = .ok buf ∧ buf ≠ [] ∧
      (pump interval dec bucket readOk offsetHW cache bg).emitted = buf ∧
      (pump interval dec bucket readOk offsetHW cache bg).nextBegin = lastID buf + 1) := by
  cases hhit : cacheHit cache bg with
  | true =>
    obtain ⟨c, rest, rfl, hbg⟩ : ∃ c rest, cache = c :: rest ∧ bg = c.offset := by
      cases cache with
      | nil => simp [cacheHit] at hhit
      | cons c rest => exact ⟨c, rest, rfl, by simpa [cacheHit] using hhit⟩
    by_cases hdata : c.data = []
    · by_cases hbe : bg = pumpEnd interval offsetHW (c :: rest) bg
      · right; left
        constructor <;> simp [pump, hhit, hdata, ← hbe]
      · cases hro : readOk with
        | false =>
          right; left
          constructor <;> simp [pump, hhit, hdata, hbe, hro]
        | true =>
          cases hq : qget dec bucket bg (pumpEnd interval offsetHW (c :: rest) bg) with
          | error e =>
            right; left
            constructor <;> simp [pump, hhit, hdata, hbe, hro, hq]
          | ok buf =>
            by_cases hbuf : buf = []
            · right; left
              constructor <;> simp [pump, hhit, hdata, hbe, hro, hq, hbuf]
            · right; right
              exact ⟨buf, rfl, hbuf,
                by simp [pump, hhit, hdata, hbe, hro, hq, hbuf],
                by simp [pump, hhit, hdata, hbe, hro, hq, hbuf]⟩
    · left
      exact ⟨c, rest, rfl, hbg, hdata, by simp [pump, hhit, hdata]⟩
  | false =>
    by_cases hbe : bg = pumpEnd interval offsetHW cache bg
    · right; left
      constructor <;> simp [pump, hhit, ← hbe]
    · cases hro : readOk with
      | false =>
        right; left
        constructor <;> simp [pump, hhit, hbe, hro]
      | true =>
        cases hq : qget dec bucket bg (pumpEnd interval offsetHW cache bg) with
        | error e =>
          right; left
          constructor <;> simp [pump, hhit, hbe, hro, hq]
        | ok buf =>
          by_cases hbuf : buf = []
          · right; left
            constructor <;> simp [pump, hhit, hbe, hro, hq, hbuf]
          · right; right
            exact ⟨buf, rfl, hbuf,
              by simp [pump, hhit, hbe, hro, hq, hbuf],
              by simp [pump, hhit, hbe, hro, hq, hbuf]⟩

/-- One pump, under a sorted bucket and a well-formed cache, emits
strictly increasing offsets that all lie in [bg, nextBegin), and never
moves the cursor backwards. -/
theorem pump_mono (interval : Nat) (dec : Decoder) (bucket : Bucket) (readOk : Bool)
    (offsetHW : Nat) (cache : List batchMsgs) (bg : Nat)
    (hb : List.Pairwise (fun a b => a.1 < b.1) bucket)
    (hc : ∀ b ∈ cache, WFBatch b) :
    List.Pairwise (· < ·)
      ((pump interval dec bucket readOk offsetHW cache bg).emitted.map msgID) ∧
    (∀ m ∈ (pump interval dec bucket readOk offsetHW cache bg).emitted,
      bg ≤ msgID m ∧ msgID m < (pump interval dec bucket readOk offsetHW cache bg).nextBegin) ∧
    bg ≤ (pump interval dec bucket readOk offsetHW cache bg).nextBegin := by
  rcases pump_cases interval dec bucket readOk offsetHW cache bg with
    ⟨c, rest, rfl, hbg, hdata, heq⟩ | ⟨he, hnb⟩ | ⟨buf, hq, hbuf, he, hnb⟩
  · obtain ⟨hne, hids⟩ := hc c (List.mem_cons_self c rest)
    rw [heq]
    have hn : 0 < c.data.length := List.length_pos.mpr hdata
    have hpw : List.Pairwise (· < ·) (c.data.map msgID) := by
      rw [hids]; exact List.pairwise_lt_range' _ _
    have hlast : lastID c.data = ((c.data.map msgID).getLast?).getD 0 := rfl
    refine ⟨hpw, ?_, ?_⟩
    · intro m hm
      have hmem : msgID m ∈ List.range' c.offset c.data.length := by
        rw [← hids]
        exact List.mem_map_of_mem msgID hm
      have hrng := List.mem_range'_1.mp hmem
      have hle : msgID m ≤ ((c.data.map msgID).getLast?).getD 0 :=
        mem_le_getLastD _ hpw _ (List.mem_map_of_mem msgID hm)
      refine ⟨by rw [hbg]; exact hrng.1, ?_⟩
      show msgID m < lastID c.data + 1
      rw [hlast]
      omega
    · have hbm : bg ∈ c.data.map msgID := by
        rw [hids, hbg]
        exact List.mem_range'_1.mpr ⟨le_refl _, by omega⟩
      have hgl := mem_le_getLastD _ hpw _ hbm
      show bg ≤ lastID c.data + 1
      rw [hlast]
      omega
  · rw [he, hnb]
    exact ⟨List.Pairwise.nil, by intro m hm; simp at hm, le_refl bg⟩
  · have hids : buf.map msgID =
        (rangeKeys bucket bg (pumpEnd interval offsetHW cache bg)).map Prod.fst :=
      decodeAll_ok_ids dec _ buf hq
    have hpw : List.Pairwise (· < ·) (buf.map msgID) := by
      rw [hids, List.pairwise_map]
      exact List.Pairwise.sublist (List.filter_sublist bucket) hb
    have hmemlow : ∀ x ∈ buf.map msgID, bg ≤ x := by
      intro x hx
      rw [hids] at hx
      rcases List.mem_map.mp hx with ⟨kv, hkv, rfl⟩
      have := (List.mem_filter.mp hkv).2
      simp only [Bool.and_eq_true, decide_eq_true_eq] at this
      exact this.1
    rw [he, hnb]
    have hlast : lastID buf = ((buf.map msgID).getLast?).getD 0 := rfl
    refine ⟨hpw, ?_, ?_⟩
    · intro m hm
      have hx : msgID m ∈ buf.map msgID := List.mem_map_of_mem msgID hm
      have hle := mem_le_getLastD _ hpw _ hx
      exact ⟨hmemlow _ hx, by omega⟩
    · have hne : buf.map msgID ≠ [] := by
        simpa using hbuf
      have hmem := getLastD_mem (buf.map msgID) hne
      have := hmemlow _ hmem
      omega

/-- A run of pumps from cursor bg, over any sequence of well-formed
environment snapshots, emits strictly increasing offsets all at least
bg. -/
theorem runPumps_mono :
    ∀ (envs : List PumpEnv) (bg : Nat), (∀ env ∈ envs, WFEnv env) →
    List.Pairwise (· < ·) ((runPumps bg envs).map msgID) ∧
    ∀ m ∈ runPumps bg envs, bg ≤ msgID m := by
  intro envs
  induction envs with
  | nil =>
    intro bg h
    exact ⟨List.Pairwise.nil, by intro m hm; simp [runPumps] at hm⟩
  | cons env rest ih =>
    intro bg h
    obtain ⟨hbk, hch⟩ := h env (List.mem_cons_self env rest)
    have hrest : ∀ e ∈ rest, WFEnv e := fun e he => h e (List.mem_cons_of_mem env he)
    obtain ⟨hpw, hbnd, hnb⟩ :=
      pump_mono env.interval env.dec env.bucket env.readOk env.offsetHW env.cache bg hbk hch
    set r := pump env.interval env.dec env.bucket env.readOk env.offsetHW env.cache bg with hr
    obtain ⟨ihpw, ihge⟩ := ih r.nextBegin hrest
    have hrun : runPumps bg (env :: rest) = r.emitted ++ runPumps r.nextBegin rest := rfl
    constructor
    · rw [hrun, List.map_append, List.pairwise_append]
      refine ⟨hpw, ihpw, ?_⟩
      intro a ha b hbmem
      rcases List.mem_map.mp ha with ⟨m, hm, rfl⟩
      rcases List.mem_map.mp hbmem with ⟨m2, hm2, rfl⟩
      have h1 := (hbnd m hm).2
      have h2 := ihge m2 hm2
      omega
    · intro m hm
      rw [hrun] at hm
      rcases List.mem_append.mp hm with hm1 | hm2
      · exact (hbnd m hm1).1
      · have := ihge m hm2
        omega

/-- Claim C4: across the queue's lifetime, the events emitted on the
egress channel by any sequence of pumps — each served from the cache or
from the bucket — have strictly increasing offsets, all at least the
initial cursor; and after every pump the cursor equals the last
delivered offset plus one (or is unchanged when nothing was
delivered). -/
theorem c4_egress_strictly_increasing :
    (∀ (bg : Nat) (envs : List PumpEnv), (∀ env ∈ envs, WFEnv env) →
      List.Pairwise (· < ·) ((runPumps bg envs).map msgID) ∧
      ∀ m ∈ runPumps bg envs, bg ≤ msgID m) ∧
    (∀ (interval : Nat) (dec : Decoder) (bucket : Bucket) (readOk : Bool)
        (offsetHW : Nat) (cache : List batchMsgs) (bg : Nat),
      (pump interval dec bucket readOk offsetHW cache bg).nextBegin =
        if (pump interval dec bucket readOk offsetHW cache bg).emitted = [] then bg
        else lastID (pump interval dec bucket readOk offsetHW cache bg).emitted + 1) := by
  constructor
  · intro bg envs h
    exact runPumps_mono envs bg h
  · intro interval dec bucket readOk offsetHW cache bg
    rcases pump_cases interval dec bucket readOk offsetHW cache bg with
      ⟨c, rest, rfl, hbg, hdata, heq⟩ | ⟨he, hnb⟩ | ⟨buf, hq, hbuf, he, hnb⟩
    · rw [heq]
      simp [hdata]
    · rw [he, hnb]
      simp
    · rw [he, hnb]
      simp [hbuf]

/-- A concrete well-formed pump environment: empty bucket, one cached
batch holding offsets 1 and 2. -/
def env0 : PumpEnv :=
  ⟨10, dec7, [], true, 2, [⟨1, [⟨⟨1, 0, 1, 0, "t"⟩, [1]⟩, ⟨⟨2, 0, 1, 0, "t"⟩, [1]⟩]⟩]⟩

/-- Witness for claim C4: a single pump over env0 delivers offsets 1 and
2 in strictly increasing order, all at least the initial cursor 1. -/
theorem c4_witness :
    List.Pairwise (· < ·) ((runPumps 1 [env0]).map msgID) ∧
    ∀ m ∈ runPumps 1 [env0], 1 ≤ msgID m := by
  refine c4_egress_strictly_increasing.1 1 [env0] ?_
  intro env henv
  rw [List.mem_singleton.mp henv]
  refine ⟨List.Pairwise.nil, ?_⟩
  intro b hb
  rw [List.mem_singleton.mp hb]
  exact ⟨by decide, by decide⟩

end BaetylQueue
